import Mathlib

/-!
Verification of the `encrust` repository's core against its specification.

The repository holds two generations of the core crate:
* `crates/encrust-core` (current): the fast backend. A `SmallRng`
  (xoshiro256++ seeded from a `u64` via SplitMix64, `rand` 0.9) produces
  keystream bytes that are XORed against the payload's serialized bytes.
* `encrust-core` (older): the cryptographic backend. An `XChaCha8`
  stream cipher keyed by a 256-bit key and a 192-bit nonce produces the
  keystream. The cipher itself is an external crate; we model its
  keystream as an arbitrary byte-stream function of (key, nonce).

Machine integers are modelled as `Nat` with explicit `% 2^64` wrapping.
Bytes are `Nat`s below 256. Loops that consume a shrinking buffer are
modelled with a structural fuel argument instantiated with the buffer
length, so that every definition evaluates by kernel reduction.
-/

namespace Encrust

/-- Constant 2^64, the wrapping modulus for 64-bit arithmetic. -/
def M64 : Nat := 18446744073709551616

/-- Model of `u64::rotate_left` for values below `2^64`. -/
def rotl64 (x r : Nat) : Nat := ((x <<< r) % M64) ||| (x >>> (64 - r))

/-- State of the xoshiro256++ generator backing `rand`'s 64-bit `SmallRng`:
four 64-bit words. -/
structure RngState where
  s0 : Nat
  s1 : Nat
  s2 : Nat
  s3 : Nat
deriving Repr, DecidableEq

/-- One step of the SplitMix64 generator, returning (output, new state).
Used by `Xoshiro256PlusPlus::seed_from_u64`. -/
def splitmix_step (state : Nat) : Nat × Nat :=
  let state := (state + 0x9e3779b97f4a7c15) % M64
  let z := state
  let z := ((z ^^^ (z >>> 30)) * 0xbf58476d1ce4e5b9) % M64
  let z := ((z ^^^ (z >>> 27)) * 0x94d049bb133111eb) % M64
  let z := z ^^^ (z >>> 31)
  (z, state)

/-- Model of `SmallRng::seed_from_u64`: derive the four xoshiro256++ state
words from a 64-bit seed using SplitMix64 (rand 0.9,
`rngs/xoshiro256plusplus.rs`). -/
def seed_from_u64 (seed : Nat) : RngState :=
  let p0 := splitmix_step (seed % M64)
  let p1 := splitmix_step p0.2
  let p2 := splitmix_step p1.2
  let p3 := splitmix_step p2.2
  ⟨p0.1, p1.1, p2.1, p3.1⟩

/-- Model of `Xoshiro256PlusPlus::next_u64`. -/
def next_u64 (st : RngState) : Nat × RngState :=
  let result := (rotl64 ((st.s0 + st.s3) % M64) 23 + st.s0) % M64
  let t := (st.s1 <<< 17) % M64
  let s2 := st.s2 ^^^ st.s0
  let s3 := st.s3 ^^^ st.s1
  let s1 := st.s1 ^^^ s2
  let s0 := st.s0 ^^^ s3
  let s2 := s2 ^^^ t
  let s3 := rotl64 s3 45
  (result, ⟨s0, s1, s2, s3⟩)

/-- Model of `Xoshiro256PlusPlus::next_u32`: the high 32 bits of
`next_u64`. -/
def next_u32 (st : RngState) : Nat × RngState :=
  let p := next_u64 st
  (p.1 >>> 32, p.2)

/-- Little-endian serialization of a bit pattern `x` into `w` bytes
(`to_le_bytes`). -/
def toLeBytes : Nat → Nat → List Nat
  | 0, _ => []
  | w + 1, x => (x % 256) :: toLeBytes w (x / 256)

/-- Little-endian deserialization (`from_le_bytes`). -/
def fromLeBytes : List Nat → Nat
  | [] => 0
  | b :: rest => b + 256 * fromLeBytes rest

/-- Helper for `fill_bytes`: the full 8-byte words of the destination,
each filled with one `next_u64` in little-endian order. -/
def fillWords : Nat → RngState → List Nat × RngState
  | 0, st => ([], st)
  | q + 1, st =>
    let p := next_u64 st
    let rest := fillWords q p.2
    (toLeBytes 8 p.1 ++ rest.1, rest.2)

/-- Model of `rand`'s `fill_bytes_via_next`, used by `SmallRng::fill_bytes`:
fill the destination in 8-byte little-endian chunks from `next_u64`; a
trailing chunk of more than 4 bytes takes the low bytes of one `next_u64`,
a trailing chunk of 1 to 4 bytes the low bytes of one `next_u32`. The
repository only ever calls this with buffer sizes 8 and 16. -/
def fill_bytes (n : Nat) (st : RngState) : List Nat × RngState :=
  let full := fillWords (n / 8) st
  if 4 < n % 8 then
    let p := next_u64 full.2
    (full.1 ++ toLeBytes (n % 8) p.1, p.2)
  else if 0 < n % 8 then
    let p := next_u32 full.2
    (full.1 ++ toLeBytes (n % 8) p.1, p.2)
  else full

/-- The chunked XOR loop shared by the numeric and `String` implementations
of `toggle_encrust` in `crates/encrust-core/src/lib.rs`: walk the byte
buffer in chunks of `k + 1` bytes, refill a `k + 1`-byte key from the
generator once per chunk, and XOR the chunk against the key
(`for chunk in bytes.chunks_mut(k + 1)`; the key array is a fixed
`k + 1`-byte buffer and `zip` truncates at the chunk length). `k = 7` for
numbers, `k = 15` for `String`s. The `fuel` argument drives structural
recursion; it is instantiated with the buffer length, which each chunk
strictly decreases, so the out-of-fuel arm is never reached. -/
def xorChunksAux (k : Nat) : Nat → List Nat → RngState → List Nat × RngState
  | _, [], st => ([], st)
  | 0, b :: rest, st => (b :: rest, st)
  | fuel + 1, b :: rest, st =>
    let p := fill_bytes (k + 1) st
    let chunk := List.zipWith HXor.hXor (List.take (k + 1) (b :: rest)) p.1
    let tail := xorChunksAux k fuel (List.drop (k + 1) (b :: rest)) p.2
    (chunk ++ tail.1, tail.2)

/-- Entry point of the chunked XOR loop. -/
def xorChunks (k : Nat) (bytes : List Nat) (st : RngState) :
    List Nat × RngState :=
  xorChunksAux k bytes.length bytes st

/-- State of the generator after `n` refills of `k + 1` bytes each. -/
def refillState (k : Nat) : Nat → RngState → RngState
  | 0, st => st
  | n + 1, st => refillState k n (fill_bytes (k + 1) st).2

/-- Keystream laid out the way the chunk loop consumes it: one full
`k + 1`-byte refill per chunk of remaining length `n`, concatenated (the
unused tail bytes of the last refill are simply never XORed because `zip`
truncates). -/
def blockKeystreamAux (k : Nat) : Nat → Nat → RngState → List Nat
  | _, 0, _ => []
  | 0, _ + 1, _ => []
  | fuel + 1, n + 1, st =>
    let p := fill_bytes (k + 1) st
    p.1 ++ blockKeystreamAux k fuel (n + 1 - (k + 1)) p.2

/-- Entry point for the block keystream of a buffer of `n` bytes. -/
def blockKeystream (k n : Nat) (st : RngState) : List Nat :=
  blockKeystreamAux k n n st

/-!
The `Encrustable` value universe. `num w x` is a fixed-width integer of
`w` bytes whose two's-complement bit pattern is `x` (this covers
`u8/i8 … u128/i128` and the 8-byte `usize/isize`; signedness only affects
how the bit pattern is displayed, not how it is toggled). `str bytes`
is a `String`'s UTF-8 byte buffer. Element sequences — `[T; N]` arrays,
`Vec<T>`s and the field lists of `#[derive(Encrustable)]` composites,
whose `toggle_encrust` all visit their elements in order with the same
generator — are encoded as cons lists `arrCons hd tl` ending in `arrNil`.
-/
inductive EVal where
  | num (w : Nat) (x : Nat)
  | str (bytes : List Nat)
  | arrNil
  | arrCons (hd : EVal) (tl : EVal)
deriving Repr, DecidableEq

/-- Well-formedness of a value: integer bit patterns fit their width and
string buffer entries are bytes. -/
def EVal.wf : EVal → Bool
  | .num w x => x < 256 ^ w
  | .str bytes => bytes.all (· < 256)
  | .arrNil => true
  | .arrCons hd tl => hd.wf && tl.wf

/-- The fast backend's `Encrustable::toggle_encrust`
(`crates/encrust-core/src/lib.rs`):
* numbers (`encrustable_number!`): `to_le_bytes`, XOR in 8-byte chunks
  with one `fill_bytes` refill of an 8-byte key per chunk, `from_le_bytes`;
* `String`: XOR the UTF-8 buffer in 16-byte chunks with one refill of a
  16-byte key per chunk;
* arrays and `Vec`s (and derived composites): toggle the elements in
  order with the same generator. -/
def toggle_encrust : EVal → RngState → EVal × RngState
  | .num w x, st =>
    let p := xorChunks 7 (toLeBytes w x) st
    (.num w (fromLeBytes p.1), p.2)
  | .str bytes, st =>
    let p := xorChunks 15 bytes st
    (.str p.1, p.2)
  | .arrNil, st => (.arrNil, st)
  | .arrCons hd tl, st =>
    let p := toggle_encrust hd st
    let q := toggle_encrust tl p.2
    (.arrCons p.1 q.1, q.2)

/-!
The fast backend's container (`crates/encrust-core/src/lib.rs`). It owns
the (obfuscated) data and the `u64` seed.
-/
structure Encrusted where
  data : EVal
  seed : Nat
deriving Repr, DecidableEq

/-- Model of `Encrusted::new`: seed a fresh `SmallRng` from `seed` and
toggle the data once before storing it. -/
def Encrusted.new (data : EVal) (seed : Nat) : Encrusted :=
  { data := (toggle_encrust data (seed_from_u64 seed)).1, seed := seed }

/-- Model of `Encrusted::from_encrusted_data`: store the caller's
(supposedly pre-obfuscated) data and seed unchanged. -/
def Encrusted.from_encrusted_data (data : EVal) (seed : Nat) : Encrusted :=
  { data := data, seed := seed }

/-- Model of `Decrusted::new` (reached through `Encrusted::decrust`): a
fresh `SmallRng` is seeded from the stored seed and the stored data is
toggled in place; the guard then exposes the container's data field. -/
def Encrusted.decrust (e : Encrusted) : Encrusted :=
  { e with data := (toggle_encrust e.data (seed_from_u64 e.seed)).1 }

/-- The plain value visible through the guard's `Deref` while it lives. -/
def decrust_value (e : Encrusted) : EVal :=
  e.decrust.data

/-- Model of `Decrusted::drop`: on release the guard seeds another fresh
`SmallRng` from the stored seed and toggles the data back in place. Its
body is the same as `Decrusted::new`'s. -/
def Decrusted.drop (e : Encrusted) : Encrusted :=
  { e with data := (toggle_encrust e.data (seed_from_u64 e.seed)).1 }

/-- Model of `Encrusted::reseed`: de-obfuscate with a generator seeded
from the old seed, install the new seed, re-obfuscate with a generator
seeded from it. -/
def Encrusted.reseed (e : Encrusted) (new_seed : Nat) : Encrusted :=
  let plain := (toggle_encrust e.data (seed_from_u64 e.seed)).1
  { data := (toggle_encrust plain (seed_from_u64 new_seed)).1,
    seed := new_seed }

/-!
The cryptographic backend (older generation, `encrust-core/src/lib.rs`).
The container owns the data, a 32-byte `chacha20::Key` and a 24-byte
`XNonce`. `XChaCha8::new(&key, &nonce)` starts a stream cipher at
position 0 of its keystream and `apply_keystream` XORs a buffer against
the next keystream bytes, advancing the position. The cipher core lives
in the external `chacha20` crate, so its keystream is modelled as an
arbitrary function of the byte position derived from (key, nonce) by an
arbitrary family `KS`; every theorem below is proved for every such
family, hence in particular for XChaCha8's actual keystream. Only the
low 8 bits of each keystream word are used, making the stream byte-valued
by construction. On the little-endian targets the crate is used on,
`to_ne_bytes`/`from_ne_bytes` coincide with the little-endian pair.
-/

/-- Keystream bytes at positions `pos, …, pos + n - 1`. -/
def ksBytes (ks : Nat → Nat) (pos n : Nat) : List Nat :=
  (List.range n).map fun i => ks (pos + i) % 256

/-- The crypto backend's `Encrustable::toggle_encrust`: numbers XOR their
native-endian serialized bytes against the next `w` keystream bytes and
deserialize; `String`s XOR their whole UTF-8 buffer; arrays, `Vec`s and
derived composites visit their elements in order with the same cipher.
The cipher state is its current keystream position. -/
def ctoggle (ks : Nat → Nat) : EVal → Nat → EVal × Nat
  | .num w x, pos =>
    (.num w (fromLeBytes
      (List.zipWith (· ^^^ ·) (toLeBytes w x) (ksBytes ks pos w))), pos + w)
  | .str bytes, pos =>
    (.str (List.zipWith (· ^^^ ·) bytes (ksBytes ks pos bytes.length)),
      pos + bytes.length)
  | .arrNil, pos => (.arrNil, pos)
  | .arrCons hd tl, pos =>
    let p := ctoggle ks hd pos
    let q := ctoggle ks tl p.2
    (.arrCons p.1 q.1, q.2)

/-- The crypto backend's container: data plus the 256-bit key and the
192-bit nonce, stored as byte lists. -/
structure CryptoEncrusted where
  data : EVal
  key : List Nat
  nonce : List Nat
deriving Repr, DecidableEq

/-- Model of the crypto `Encrusted::new`: build `XChaCha8::new(&key, &nonce)`
(keystream position 0) and toggle the data once before storing it. -/
def CryptoEncrusted.new (KS : List Nat → List Nat → Nat → Nat)
    (data : EVal) (key nonce : List Nat) : CryptoEncrusted :=
  { data := (ctoggle (KS key nonce) data 0).1, key := key, nonce := nonce }

/-- Model of the crypto `Encrusted::from_encrusted_data`: store data, key
and nonce unchanged. -/
def CryptoEncrusted.from_encrusted_data
    (data : EVal) (key nonce : List Nat) : CryptoEncrusted :=
  { data := data, key := key, nonce := nonce }

/-- Model of the crypto `Decrusted::new`: a fresh cipher is built from the
stored key and nonce (position 0) and the data toggled in place. -/
def CryptoEncrusted.decrust (KS : List Nat → List Nat → Nat → Nat)
    (e : CryptoEncrusted) : CryptoEncrusted :=
  { e with data := (ctoggle (KS e.key e.nonce) e.data 0).1 }

/-- The plain value visible through the crypto guard's `Deref`. -/
def cdecrust_value (KS : List Nat → List Nat → Nat → Nat)
    (e : CryptoEncrusted) : EVal :=
  (CryptoEncrusted.decrust KS e).data

/-- Model of the crypto `Decrusted::drop`: same body as `Decrusted::new` —
a fresh cipher from the stored key and nonce re-toggles the data. -/
def CryptoDecrusted.drop (KS : List Nat → List Nat → Nat → Nat)
    (e : CryptoEncrusted) : CryptoEncrusted :=
  { e with data := (ctoggle (KS e.key e.nonce) e.data 0).1 }

/-- Model of the crypto `Encrusted::rekey`: decrypt under the stored key
and nonce, install the freshly drawn key and nonce (the `rng.gen` results
are taken as parameters), re-encrypt under them. -/
def CryptoEncrusted.rekey (KS : List Nat → List Nat → Nat → Nat)
    (e : CryptoEncrusted) (newKey newNonce : List Nat) : CryptoEncrusted :=
  let plain := (ctoggle (KS e.key e.nonce) e.data 0).1
  { data := (ctoggle (KS newKey newNonce) plain 0).1,
    key := newKey, nonce := newNonce }

/-!
Destruction. `zeroize` overwrites a value's bytes with the fixed all-zero
pattern. The two `Drop for Encrusted` bodies differ:
* fast backend: `self.data.zeroize(); self.seed.zeroize();`
* crypto backend: `self.data.zeroize(); self.key.zeroize();
  self.data.zeroize();` — the third call hits `data` a second time and
  the nonce is never wiped.
We record both the resulting state and the sequence of wipe targets.
-/

/-- Result of `Zeroize::zeroize` on an `Encrustable` value: every byte
(and numeric bit pattern) becomes 0. -/
def EVal.zeroize : EVal → EVal
  | .num w _ => .num w 0
  | .str bytes => .str (bytes.map fun _ => 0)
  | .arrNil => .arrNil
  | .arrCons hd tl => .arrCons hd.zeroize tl.zeroize

/-- Targets of the `zeroize` calls issued by the `Drop` implementations. -/
inductive WipeTarget where
  | data
  | seed
  | key
  | nonce
deriving Repr, DecidableEq

/-- Sequence of `zeroize` calls in the fast backend's
`Drop for Encrusted`: `self.data.zeroize(); self.seed.zeroize();`. -/
def fast_drop_wipes : List WipeTarget := [.data, .seed]

/-- Container state after the fast backend's drop: data bytes and the
seed are overwritten with the wipe pattern. -/
def Encrusted.drop (e : Encrusted) : Encrusted :=
  { data := e.data.zeroize, seed := 0 }

/-- Sequence of `zeroize` calls in the crypto backend's
`Drop for Encrusted`: `self.data.zeroize(); self.key.zeroize();
self.data.zeroize();`. -/
def crypto_drop_wipes : List WipeTarget := [.data, .key, .data]

/-- Container state after the crypto backend's drop, mirroring the three
calls: data is zeroized, the key is zeroized, data is zeroized again;
the nonce field is never touched. -/
def CryptoEncrusted.drop (e : CryptoEncrusted) : CryptoEncrusted :=
  { data := e.data.zeroize.zeroize,
    key := e.key.map fun _ => 0,
    nonce := e.nonce }

/-!
Build-time embedding generator (`crates/encrust-macros`). The parser
(`parser.rs`) turns macro input into a typed `Literal` tree; the
generator (`generator.rs`) draws one random `u64` seed per call site,
seeds a `SmallRng` from it, toggles the literal once with that generator
and emits source constructing
`Encrusted::from_encrusted_data(toggled, seed)`.
-/

/-- The twelve integer types accepted by the parser. -/
inductive IntType where
  | i8 | i16 | i32 | i64 | i128 | isize
  | u8 | u16 | u32 | u64 | u128 | usize
deriving Repr, DecidableEq

/-- Width in bytes; `usize`/`isize` are 8 bytes on the 64-bit targets
the crate is built for. -/
def IntType.width : IntType → Nat
  | .i8 | .u8 => 1
  | .i16 | .u16 => 2
  | .i32 | .u32 => 4
  | .i64 | .u64 | .isize | .usize => 8
  | .i128 | .u128 => 16

/-- Whether the type is signed. -/
def IntType.signed : IntType → Bool
  | .i8 | .i16 | .i32 | .i64 | .i128 | .isize => true
  | .u8 | .u16 | .u32 | .u64 | .u128 | .usize => false

/-- The range check performed by syn's `base10_parse::<T>`. -/
def IntType.inRange (t : IntType) (v : Int) : Bool :=
  if t.signed then
    decide (-((2 : Int) ^ (8 * t.width - 1)) ≤ v) &&
      decide (v < (2 : Int) ^ (8 * t.width - 1))
  else
    decide (0 ≤ v) && decide (v < (2 : Int) ^ (8 * t.width))

/-- Two's-complement `t.width`-byte bit pattern of an integer value. -/
def IntType.bitPattern (t : IntType) (v : Int) : Nat :=
  (v % ((256 : Int) ^ t.width)).toNat

/-- The parser's `Literal` tree (`parser.rs`): the twelve suffixed
integer variants are collapsed into `int` carrying the `IntType` and the
parsed value; `String` carries its UTF-8 bytes; arrays are cons-encoded
as for `EVal`. -/
inductive Literal where
  | int (t : IntType) (v : Int)
  | str (bytes : List Nat)
  | arrNil
  | arrCons (hd : Literal) (tl : Literal)
deriving Repr, DecidableEq

/-- Well-formedness: integer values in range for their type, string
buffer entries are bytes. -/
def Literal.wf : Literal → Bool
  | .int t v => t.inRange v
  | .str bytes => bytes.all (· < 256)
  | .arrNil => true
  | .arrCons hd tl => hd.wf && tl.wf

/-- The runtime value a literal denotes. -/
def Literal.toEVal : Literal → EVal
  | .int t v => .num t.width (t.bitPattern v)
  | .str bytes => .str bytes
  | .arrNil => .arrNil
  | .arrCons hd tl => .arrCons hd.toEVal tl.toEVal

/-- Value denoted by the token stream `Literal::to_token_stream`
(`generator.rs`) renders: numbers are toggled with the threaded generator
and emitted as the toggled literal (`number_to_token_stream!`); strings
are toggled and emitted as `String::from_utf8_unchecked([bytes].to_vec())`;
array elements are rendered in order with the same threaded generator. -/
def to_token_stream : Literal → RngState → EVal × RngState
  | .int t v, st =>
    let p := xorChunks 7 (toLeBytes t.width (t.bitPattern v)) st
    (.num t.width (fromLeBytes p.1), p.2)
  | .str bytes, st =>
    let p := xorChunks 15 bytes st
    (.str p.1, p.2)
  | .arrNil, st => (.arrNil, st)
  | .arrCons hd tl, st =>
    let p := to_token_stream hd st
    let q := to_token_stream tl p.2
    (.arrCons p.1 q.1, q.2)

/-- Model of `ToEncrustedTokenStream::generate_output_tokens` on the
success path: draw a fresh random seed (passed here as a parameter),
seed a `SmallRng` from it, render the toggled literal and wrap it in
`Encrusted::from_encrusted_data(data, seed)`. -/
def generate_output_tokens (lit : Literal) (seed : Nat) : Encrusted :=
  Encrusted.from_encrusted_data (to_token_stream lit (seed_from_u64 seed)).1 seed

/-- An integer literal as `syn` hands it to the parser: its base-10
value (sign included), its type suffix, and an opaque source span. -/
structure RawIntLit where
  value : Int
  suffix : String
  span : Nat
deriving Repr, DecidableEq

/-- A `syn::Error`: message attached to a source span. -/
structure SynError where
  span : Nat
  msg : String
deriving Repr, DecidableEq

/-- Model of syn's `LitInt::base10_parse::<T>`: in-range values parse to
the typed literal, out-of-range values error at the literal's span. -/
def base10_parse (t : IntType) (lit : RawIntLit) : Except SynError Literal :=
  if t.inRange lit.value then .ok (.int t lit.value)
  else .error ⟨lit.span, "number too large to fit in target type"⟩

/-- The integer arm of `<Literal as Parse>::parse` (`parser.rs`): match
the suffix against the twelve supported types and `base10_parse` the
value; an empty suffix and an unknown suffix are reported as errors at
the literal's span. -/
def litint_parse (lit : RawIntLit) : Except SynError Literal :=
  match lit.suffix with
  | "i8" => base10_parse .i8 lit
  | "i16" => base10_parse .i16 lit
  | "i32" => base10_parse .i32 lit
  | "i64" => base10_parse .i64 lit
  | "i128" => base10_parse .i128 lit
  | "isize" => base10_parse .isize lit
  | "u8" => base10_parse .u8 lit
  | "u16" => base10_parse .u16 lit
  | "u32" => base10_parse .u32 lit
  | "u64" => base10_parse .u64 lit
  | "u128" => base10_parse .u128 lit
  | "usize" => base10_parse .usize lit
  | "" => .error ⟨lit.span, "No integer data type suffix supplied."⟩
  | _ => .error ⟨lit.span,
      "Supplied integer type not supported by encrust_integer."⟩

/-- Classifier for the twelve supported suffixes, used to state the
error-handling claim. -/
def IntType.ofSuffix : String → Option IntType
  | "i8" => some .i8
  | "i16" => some .i16
  | "i32" => some .i32
  | "i64" => some .i64
  | "i128" => some .i128
  | "isize" => some .isize
  | "u8" => some .u8
  | "u16" => some .u16
  | "u32" => some .u32
  | "u64" => some .u64
  | "u128" => some .u128
  | "usize" => some .usize
  | _ => none

/-- Result of expanding `encrust!` on an integer literal:
`parse_macro_input!` turns a parse error into a `compile_error!`
invocation at the error's span (so no obfuscated constant is emitted);
on success `generate_output_tokens` emits the encrusted constant. -/
inductive ExpansionResult where
  | encrusted (c : Encrusted)
  | compileError (span : Nat) (msg : String)
deriving Repr, DecidableEq

/-- The `encrust!` pipeline on an integer literal
(`lib.rs`: `parse_macro_input!(input as Literal).generate_output_tokens()`). -/
def encrust_expand_int (lit : RawIntLit) (seed : Nat) : ExpansionResult :=
  match litint_parse lit with
  | .ok l => .encrusted (generate_output_tokens l seed)
  | .error e => .compileError e.span e.msg

/-! Lemmas about byte serialization. -/

theorem toLeBytes_length (w : Nat) : ∀ x, (toLeBytes w x).length = w := by
  induction w with
  | zero => intro x; rfl
  | succ w ih => intro x; simp [toLeBytes, ih]

theorem toLeBytes_lt (w : Nat) : ∀ x, ∀ b ∈ toLeBytes w x, b < 256 := by
  induction w with
  | zero => intro x b hb; simp [toLeBytes] at hb
  | succ w ih =>
    intro x b hb
    simp only [toLeBytes, List.mem_cons] at hb
    rcases hb with h | h
    · omega
    · exact ih _ b h

theorem fromLeBytes_toLeBytes (w : Nat) :
    ∀ x, x < 256 ^ w → fromLeBytes (toLeBytes w x) = x := by
  induction w with
  | zero => intro x hx; interval_cases x; rfl
  | succ w ih =>
    intro x hx
    have hdiv : x / 256 < 256 ^ w := by
      rw [Nat.div_lt_iff_lt_mul (by norm_num)]
      calc x < 256 ^ (w + 1) := hx
        _ = 256 ^ w * 256 := by ring
    simp [toLeBytes, fromLeBytes, ih _ hdiv]
    omega

theorem toLeBytes_fromLeBytes :
    ∀ bs : List Nat, (∀ b ∈ bs, b < 256) →
      toLeBytes bs.length (fromLeBytes bs) = bs := by
  intro bs
  induction bs with
  | nil => intro _; rfl
  | cons b rest ih =>
    intro h
    have hb : b < 256 := h b (List.mem_cons_self _ _)
    simp only [List.length_cons, toLeBytes, fromLeBytes, List.cons.injEq]
    refine ⟨by omega, ?_⟩
    have hq : (b + 256 * fromLeBytes rest) / 256 = fromLeBytes rest := by
      omega
    rw [hq]
    exact ih fun a ha => h a (List.mem_cons_of_mem _ ha)

theorem fromLeBytes_lt :
    ∀ bs : List Nat, (∀ b ∈ bs, b < 256) →
      fromLeBytes bs < 256 ^ bs.length := by
  intro bs
  induction bs with
  | nil => intro _; simp [fromLeBytes]
  | cons b rest ih =>
    intro h
    have hb : b < 256 := h b (List.mem_cons_self _ _)
    have hr := ih fun a ha => h a (List.mem_cons_of_mem _ ha)
    simp only [fromLeBytes, List.length_cons, pow_succ]
    calc b + 256 * fromLeBytes rest
        < 256 + 256 * fromLeBytes rest := by omega
      _ = 256 * (fromLeBytes rest + 1) := by ring
      _ ≤ 256 * 256 ^ rest.length := by
          have : fromLeBytes rest + 1 ≤ 256 ^ rest.length := hr
          exact Nat.mul_le_mul_left _ this
      _ = 256 ^ rest.length * 256 := by ring

/-! Lemmas about keystream refills. -/

theorem fillWords_length (q : Nat) :
    ∀ st, (fillWords q st).1.length = 8 * q := by
  induction q with
  | zero => intro st; rfl
  | succ q ih =>
    intro st
    simp [fillWords, toLeBytes_length, ih]
    omega

theorem fillWords_lt (q : Nat) :
    ∀ st, ∀ b ∈ (fillWords q st).1, b < 256 := by
  induction q with
  | zero => intro st b hb; simp [fillWords] at hb
  | succ q ih =>
    intro st b hb
    simp only [fillWords, List.mem_append] at hb
    rcases hb with h | h
    · exact toLeBytes_lt 8 _ b h
    · exact ih _ b h

theorem fill_bytes_length (n : Nat) (st : RngState) :
    (fill_bytes n st).1.length = n := by
  have h8 : 8 * (n / 8) + n % 8 = n := Nat.div_add_mod n 8
  unfold fill_bytes
  split
  · simp [fillWords_length, toLeBytes_length]; omega
  · split
    · simp [fillWords_length, toLeBytes_length]; omega
    · simp [fillWords_length]; omega

theorem fill_bytes_lt (n : Nat) (st : RngState) :
    ∀ b ∈ (fill_bytes n st).1, b < 256 := by
  unfold fill_bytes
  split
  · intro b hb
    simp only [List.mem_append] at hb
    rcases hb with h | h
    · exact fillWords_lt _ _ b h
    · exact toLeBytes_lt _ _ b h
  · split
    · intro b hb
      simp only [List.mem_append] at hb
      rcases hb with h | h
      · exact fillWords_lt _ _ b h
      · exact toLeBytes_lt _ _ b h
    · intro b hb
      exact fillWords_lt _ _ b hb

/-! Lemmas about XOR on byte lists. -/

theorem zipWith_xor_cancel :
    ∀ c k : List Nat, c.length ≤ k.length →
      List.zipWith (· ^^^ ·) (List.zipWith (· ^^^ ·) c k) k = c := by
  intro c
  induction c with
  | nil => intro k _; simp
  | cons a c ih =>
    intro k hk
    cases k with
    | nil => simp at hk
    | cons b k =>
      simp only [List.zipWith, List.cons.injEq]
      exact ⟨Nat.xor_cancel_right b a, ih k (by simpa using hk)⟩

theorem zipWith_xor_lt :
    ∀ l k : List Nat, (∀ a ∈ l, a < 256) → (∀ a ∈ k, a < 256) →
      ∀ c ∈ List.zipWith (· ^^^ ·) l k, c < 256 := by
  intro l
  induction l with
  | nil => intro k _ _ c hc; simp at hc
  | cons a l ih =>
    intro k hl hk c hc
    cases k with
    | nil => simp at hc
    | cons b k =>
      simp only [List.zipWith, List.mem_cons] at hc
      rcases hc with h | h
      · have ha : a < 256 := hl a (List.mem_cons_self _ _)
        have hb : b < 256 := hk b (List.mem_cons_self _ _)
        have e : (2 : Nat) ^ 8 = 256 := by norm_num
        have h2 : a ^^^ b < 2 ^ 8 :=
          Nat.xor_lt_two_pow (by rw [e]; exact ha) (by rw [e]; exact hb)
        rw [e] at h2
        subst h; omega
      · exact ih k (fun x hx => hl x (List.mem_cons_of_mem _ hx))
          (fun x hx => hk x (List.mem_cons_of_mem _ hx)) c h

theorem zipWith_xor_split :
    ∀ l k k' : List Nat,
      List.zipWith (· ^^^ ·) l (k ++ k') =
        List.zipWith (· ^^^ ·) (l.take k.length) k ++
          List.zipWith (· ^^^ ·) (l.drop k.length) k' := by
  intro l
  induction l with
  | nil => intro k k'; simp
  | cons a l ih =>
    intro k k'
    cases k with
    | nil => simp
    | cons b k =>
      simp only [List.zipWith, List.length_cons, List.take_succ_cons,
        List.drop_succ_cons, List.cons_append, List.append_eq]
      rw [ih]

/-! Lemmas about the chunked XOR loop. -/

theorem blockKeystreamAux_length (k : Nat) :
    ∀ fuel n st, n ≤ fuel → n ≤ (blockKeystreamAux k fuel n st).length := by
  intro fuel
  induction fuel with
  | zero => intro n st h; omega
  | succ fuel ih =>
    intro n st h
    cases n with
    | zero => exact Nat.zero_le _
    | succ n =>
      simp only [blockKeystreamAux, List.length_append, fill_bytes_length]
      have hr := ih (n + 1 - (k + 1)) (fill_bytes (k + 1) st).2 (by omega)
      omega

theorem blockKeystreamAux_lt (k : Nat) :
    ∀ fuel n st, ∀ b ∈ blockKeystreamAux k fuel n st, b < 256 := by
  intro fuel
  induction fuel with
  | zero =>
    intro n st b hb
    cases n with
    | zero => simp [blockKeystreamAux] at hb
    | succ n => simp [blockKeystreamAux] at hb
  | succ fuel ih =>
    intro n st b hb
    cases n with
    | zero => simp [blockKeystreamAux] at hb
    | succ n =>
      simp only [blockKeystreamAux, List.mem_append] at hb
      rcases hb with h | h
      · exact fill_bytes_lt _ _ b h
      · exact ih _ _ b h

theorem blockKeystream_length_ge (k n : Nat) (st : RngState) :
    n ≤ (blockKeystream k n st).length :=
  blockKeystreamAux_length k n n st le_rfl

theorem blockKeystream_lt (k n : Nat) (st : RngState) :
    ∀ b ∈ blockKeystream k n st, b < 256 :=
  blockKeystreamAux_lt k n n st

theorem xorChunksAux_eq_zipWith (k : Nat) :
    ∀ fuel bytes st, bytes.length ≤ fuel →
      (xorChunksAux k fuel bytes st).1 =
        List.zipWith (· ^^^ ·) bytes
          (blockKeystreamAux k fuel bytes.length st) := by
  intro fuel
  induction fuel with
  | zero =>
    intro bytes st h
    cases bytes with
    | nil => simp [xorChunksAux, blockKeystreamAux]
    | cons b rest => simp at h
  | succ fuel ih =>
    intro bytes st h
    cases bytes with
    | nil => simp [xorChunksAux, blockKeystreamAux]
    | cons b rest =>
      simp only [xorChunksAux, List.length_cons, blockKeystreamAux]
      rw [zipWith_xor_split, fill_bytes_length]
      congr 1
      rw [ih _ _ (by simp only [List.length_drop, List.length_cons] at *; omega)]
      congr 1
      simp [List.length_drop]

theorem chunkCount_succ (k n : Nat) (h : 0 < n) :
    (n + k) / (k + 1) = (n - (k + 1) + k) / (k + 1) + 1 := by
  rcases le_or_lt n (k + 1) with hle | hlt
  · have h1 : n - (k + 1) = 0 := by omega
    rw [h1]
    have h2 : (0 + k) / (k + 1) = 0 := Nat.div_eq_of_lt (by omega)
    rw [h2]
    have h3 : n + k = (n - 1) + (k + 1) := by omega
    rw [h3, Nat.add_div_right _ (by omega : 0 < k + 1)]
    have h4 : (n - 1) / (k + 1) = 0 := Nat.div_eq_of_lt (by omega)
    rw [h4]
  · have h3 : n + k = (n - (k + 1) + k) + (k + 1) := by omega
    rw [h3, Nat.add_div_right _ (by omega : 0 < k + 1)]

theorem xorChunksAux_snd (k : Nat) :
    ∀ fuel bytes st, bytes.length ≤ fuel →
      (xorChunksAux k fuel bytes st).2 =
        refillState k ((bytes.length + k) / (k + 1)) st := by
  intro fuel
  induction fuel with
  | zero =>
    intro bytes st h
    cases bytes with
    | nil =>
      simp only [xorChunksAux, List.length_nil, Nat.zero_add]
      rw [Nat.div_eq_of_lt (by omega : k < k + 1)]
      rfl
    | cons b rest => simp at h
  | succ fuel ih =>
    intro bytes st h
    cases bytes with
    | nil =>
      simp only [xorChunksAux, List.length_nil, Nat.zero_add]
      rw [Nat.div_eq_of_lt (by omega : k < k + 1)]
      rfl
    | cons b rest =>
      simp only [xorChunksAux, List.length_cons]
      rw [ih _ _ (by simp only [List.length_drop, List.length_cons] at *; omega)]
      rw [List.length_drop, List.length_cons]
      rw [chunkCount_succ k (rest.length + 1) (by omega)]
      rfl

theorem xorChunks_fst (k : Nat) (bytes : List Nat) (st : RngState) :
    (xorChunks k bytes st).1 =
      List.zipWith (· ^^^ ·) bytes (blockKeystream k bytes.length st) :=
  xorChunksAux_eq_zipWith k bytes.length bytes st le_rfl

theorem xorChunks_length (k : Nat) (bytes : List Nat) (st : RngState) :
    (xorChunks k bytes st).1.length = bytes.length := by
  rw [xorChunks_fst]
  have h := blockKeystreamAux_length k bytes.length bytes.length st le_rfl
  simp only [List.length_zipWith, blockKeystream]
  omega

theorem xorChunks_lt (k : Nat) (bytes : List Nat) (st : RngState)
    (h : ∀ b ∈ bytes, b < 256) :
    ∀ b ∈ (xorChunks k bytes st).1, b < 256 := by
  rw [xorChunks_fst]
  exact zipWith_xor_lt bytes _ h (blockKeystreamAux_lt k _ _ st)

theorem xorChunks_snd (k : Nat) (bytes : List Nat) (st : RngState) :
    (xorChunks k bytes st).2 =
      refillState k ((bytes.length + k) / (k + 1)) st :=
  xorChunksAux_snd k bytes.length bytes st le_rfl

theorem xorChunks_xorChunks (k : Nat) (bytes : List Nat) (st : RngState) :
    xorChunks k (xorChunks k bytes st).1 st =
      (bytes, (xorChunks k bytes st).2) := by
  have hlen := xorChunks_length k bytes st
  have h1 : (xorChunks k (xorChunks k bytes st).1 st).1 = bytes := by
    rw [xorChunks_fst, hlen, xorChunks_fst]
    exact zipWith_xor_cancel bytes _
      (blockKeystreamAux_length k bytes.length bytes.length st le_rfl)
  have h2 : (xorChunks k (xorChunks k bytes st).1 st).2 =
      (xorChunks k bytes st).2 := by
    rw [xorChunks_snd, xorChunks_snd, hlen]
  exact Prod.ext h1 h2

/-- Toggling preserves well-formedness. -/
theorem toggle_encrust_wf :
    ∀ (v : EVal) (st : RngState), v.wf = true →
      (toggle_encrust v st).1.wf = true := by
  intro v
  induction v with
  | num w x =>
    intro st _
    simp only [toggle_encrust, EVal.wf, decide_eq_true_eq]
    have hlen : (xorChunks 7 (toLeBytes w x) st).1.length = w := by
      rw [xorChunks_length, toLeBytes_length]
    calc fromLeBytes (xorChunks 7 (toLeBytes w x) st).1
        < 256 ^ (xorChunks 7 (toLeBytes w x) st).1.length :=
          fromLeBytes_lt _ (xorChunks_lt 7 _ st (toLeBytes_lt w x))
      _ = 256 ^ w := by rw [hlen]
  | str bytes =>
    intro st hwf
    simp only [EVal.wf, List.all_eq_true, decide_eq_true_eq] at hwf ⊢
    exact fun b hb => xorChunks_lt 15 bytes st hwf b hb
  | arrNil => intro st h; exact h
  | arrCons hd tl ihh iht =>
    intro st hwf
    simp only [EVal.wf, Bool.and_eq_true] at hwf ⊢
    exact ⟨ihh st hwf.1, iht _ hwf.2⟩

/-- Toggling twice from the same generator state returns the original
value and consumes the same amount of keystream: XOR against an identical
keystream is an involution, and the keystream consumed depends only on
the byte-length structure of the value, which toggling preserves. -/
theorem toggle_encrust_toggle_encrust :
    ∀ (v : EVal) (st : RngState), v.wf = true →
      toggle_encrust (toggle_encrust v st).1 st =
        (v, (toggle_encrust v st).2) := by
  intro v
  induction v with
  | num w x =>
    intro st hwf
    simp only [EVal.wf, decide_eq_true_eq] at hwf
    simp only [toggle_encrust]
    have hlen : (xorChunks 7 (toLeBytes w x) st).1.length = w := by
      rw [xorChunks_length, toLeBytes_length]
    have hlt : ∀ b ∈ (xorChunks 7 (toLeBytes w x) st).1, b < 256 :=
      xorChunks_lt 7 _ st (toLeBytes_lt w x)
    have hgen : ∀ bs : List Nat, bs.length = w → (∀ b ∈ bs, b < 256) →
        toLeBytes w (fromLeBytes bs) = bs := by
      intro bs hbl hblt
      rw [← hbl]
      exact toLeBytes_fromLeBytes bs hblt
    rw [hgen _ hlen hlt, xorChunks_xorChunks, fromLeBytes_toLeBytes w x hwf]
  | str bytes =>
    intro st _
    simp only [toggle_encrust]
    rw [xorChunks_xorChunks]
  | arrNil => intro st _; rfl
  | arrCons hd tl ihh iht =>
    intro st hwf
    simp only [EVal.wf, Bool.and_eq_true] at hwf
    simp only [toggle_encrust]
    rw [ihh st hwf.1, iht _ hwf.2]

theorem ksBytes_length (ks : Nat → Nat) (pos n : Nat) :
    (ksBytes ks pos n).length = n := by
  simp [ksBytes]

theorem ksBytes_lt (ks : Nat → Nat) (pos n : Nat) :
    ∀ b ∈ ksBytes ks pos n, b < 256 := by
  intro b hb
  simp only [ksBytes, List.mem_map] at hb
  obtain ⟨i, _, hi⟩ := hb
  omega

theorem ctoggle_wf (ks : Nat → Nat) :
    ∀ (v : EVal) (pos : Nat), v.wf = true →
      (ctoggle ks v pos).1.wf = true := by
  intro v
  induction v with
  | num w x =>
    intro pos _
    simp only [ctoggle, EVal.wf, decide_eq_true_eq]
    have hlen : (List.zipWith (· ^^^ ·) (toLeBytes w x)
        (ksBytes ks pos w)).length = w := by
      simp [List.length_zipWith, toLeBytes_length, ksBytes_length]
    calc fromLeBytes (List.zipWith (· ^^^ ·) (toLeBytes w x) (ksBytes ks pos w))
        < 256 ^ (List.zipWith (· ^^^ ·) (toLeBytes w x)
            (ksBytes ks pos w)).length :=
          fromLeBytes_lt _
            (zipWith_xor_lt _ _ (toLeBytes_lt w x) (ksBytes_lt ks pos w))
      _ = 256 ^ w := by rw [hlen]
  | str bytes =>
    intro pos hwf
    simp only [EVal.wf, List.all_eq_true, decide_eq_true_eq] at hwf ⊢
    exact fun b hb =>
      zipWith_xor_lt _ _ hwf (ksBytes_lt ks pos bytes.length) b hb
  | arrNil => intro pos h; exact h
  | arrCons hd tl ihh iht =>
    intro pos hwf
    simp only [EVal.wf, Bool.and_eq_true] at hwf ⊢
    exact ⟨ihh pos hwf.1, iht _ hwf.2⟩

/-- Applying the crypto toggle twice from the same keystream position is
the identity and consumes the same stretch of keystream. -/
theorem ctoggle_ctoggle (ks : Nat → Nat) :
    ∀ (v : EVal) (pos : Nat), v.wf = true →
      ctoggle ks (ctoggle ks v pos).1 pos = (v, (ctoggle ks v pos).2) := by
  intro v
  induction v with
  | num w x =>
    intro pos hwf
    simp only [EVal.wf, decide_eq_true_eq] at hwf
    simp only [ctoggle]
    have hlen : (List.zipWith (· ^^^ ·) (toLeBytes w x)
        (ksBytes ks pos w)).length = w := by
      simp [List.length_zipWith, toLeBytes_length, ksBytes_length]
    have hlt : ∀ b ∈ List.zipWith (· ^^^ ·) (toLeBytes w x) (ksBytes ks pos w),
        b < 256 :=
      zipWith_xor_lt _ _ (toLeBytes_lt w x) (ksBytes_lt ks pos w)
    have hgen : ∀ bs : List Nat, bs.length = w → (∀ b ∈ bs, b < 256) →
        toLeBytes w (fromLeBytes bs) = bs := by
      intro bs hbl hblt
      rw [← hbl]
      exact toLeBytes_fromLeBytes bs hblt
    rw [hgen _ hlen hlt,
      zipWith_xor_cancel _ _ (by rw [toLeBytes_length, ksBytes_length]),
      fromLeBytes_toLeBytes w x hwf]
  | str bytes =>
    intro pos _
    simp only [ctoggle]
    have hlen : (List.zipWith (· ^^^ ·) bytes
        (ksBytes ks pos bytes.length)).length = bytes.length := by
      simp [List.length_zipWith, ksBytes_length]
    rw [hlen,
      zipWith_xor_cancel _ _ (by rw [ksBytes_length])]
  | arrNil => intro pos _; rfl
  | arrCons hd tl ihh iht =>
    intro pos hwf
    simp only [EVal.wf, Bool.and_eq_true] at hwf
    simp only [ctoggle]
    rw [ihh pos hwf.1, iht _ hwf.2]

/-! Further helper lemmas. -/

theorem zipWith_xor_eq_self :
    ∀ l k : List Nat, l.length ≤ k.length →
      (List.zipWith (· ^^^ ·) l k = l ↔ ∀ b ∈ k.take l.length, b = 0) := by
  intro l
  induction l with
  | nil => intro k _; simp
  | cons a l ih =>
    intro k hk
    cases k with
    | nil => simp at hk
    | cons b k =>
      simp only [List.zipWith, List.length_cons, List.take_succ_cons,
        List.mem_cons, List.cons.injEq]
      constructor
      · rintro ⟨hab, hrest⟩
        have hb : b = 0 := by
          have : a ^^^ b = a ^^^ 0 := by rw [Nat.xor_zero]; exact hab
          exact Nat.xor_right_inj.mp this
        intro c hc
        rcases hc with h | h
        · omega
        · exact ((ih k (by simpa using hk)).mp hrest) c h
      · intro hall
        have hb : b = 0 := hall b (Or.inl rfl)
        refine ⟨by rw [hb, Nat.xor_zero], ?_⟩
        exact (ih k (by simpa using hk)).mpr fun c hc => hall c (Or.inr hc)

theorem IntType.bitPattern_lt (t : IntType) (v : Int) :
    t.bitPattern v < 256 ^ t.width := by
  unfold IntType.bitPattern
  have hm : (0 : Int) < (256 : Int) ^ t.width := by positivity
  have h1 : v % ((256 : Int) ^ t.width) < (256 : Int) ^ t.width :=
    Int.emod_lt_of_pos v hm
  have h2 : (0 : Int) ≤ v % ((256 : Int) ^ t.width) :=
    Int.emod_nonneg v (by positivity)
  have hcast : ((256 ^ t.width : Nat) : Int) = (256 : Int) ^ t.width := by
    push_cast
    ring
  omega

theorem Literal.toEVal_wf :
    ∀ lit : Literal, lit.wf = true → lit.toEVal.wf = true := by
  intro lit
  induction lit with
  | int t v =>
    intro _
    simp only [Literal.toEVal, EVal.wf, decide_eq_true_eq]
    exact IntType.bitPattern_lt t v
  | str bytes => intro h; exact h
  | arrNil => intro h; exact h
  | arrCons hd tl ihh iht =>
    intro h
    simp only [Literal.wf, Bool.and_eq_true] at h
    simp only [Literal.toEVal, EVal.wf, Bool.and_eq_true]
    exact ⟨ihh h.1, iht h.2⟩

theorem to_token_stream_eq_toggle :
    ∀ (lit : Literal) (st : RngState),
      to_token_stream lit st = toggle_encrust lit.toEVal st := by
  intro lit
  induction lit with
  | int t v => intro st; rfl
  | str bytes => intro st; rfl
  | arrNil => intro st; rfl
  | arrCons hd tl ihh iht =>
    intro st
    simp only [to_token_stream, Literal.toEVal, toggle_encrust, ihh, iht]

theorem litint_parse_eq (lit : RawIntLit) :
    litint_parse lit =
      match IntType.ofSuffix lit.suffix with
      | some t => base10_parse t lit
      | none =>
        if lit.suffix = "" then
          .error ⟨lit.span, "No integer data type suffix supplied."⟩
        else
          .error ⟨lit.span,
            "Supplied integer type not supported by encrust_integer."⟩ := by
  unfold litint_parse
  split
  · rename_i heq; rw [heq]; rfl
  · rename_i heq; rw [heq]; rfl
  · rename_i heq; rw [heq]; rfl
  · rename_i heq; rw [heq]; rfl
  · rename_i heq; rw [heq]; rfl
  · rename_i heq; rw [heq]; rfl
  · rename_i heq; rw [heq]; rfl
  · rename_i heq; rw [heq]; rfl
  · rename_i heq; rw [heq]; rfl
  · rename_i heq; rw [heq]; rfl
  · rename_i heq; rw [heq]; rfl
  · rename_i heq; rw [heq]; rfl
  · rename_i heq; rw [heq]; rfl
  · split
    · rename_i heq
      unfold IntType.ofSuffix at heq
      split at heq
      all_goals simp_all
    · rw [if_neg (by assumption)]

/-! Claim theorems. -/

/-- C1: constructing a container from a plain value with `Encrusted::new`
and exposing it with `decrust` yields exactly the original value, for
the fast backend (any `u64` seed) and for the cryptographic backend (any
key + nonce, any keystream family); equivalently, applying
`toggle_encrust` twice with two engines freshly seeded from the same key
material is the identity. -/
theorem c1_construct_expose_roundtrip (v : EVal) (seed : Nat)
    (KS : List Nat → List Nat → Nat → Nat) (key nonce : List Nat)
    (hwf : v.wf = true) :
    decrust_value (Encrusted.new v seed) = v ∧
    cdecrust_value KS (CryptoEncrusted.new KS v key nonce) = v ∧
    (toggle_encrust (toggle_encrust v (seed_from_u64 seed)).1
        (seed_from_u64 seed)).1 = v := by
  refine ⟨?_, ?_, ?_⟩
  · simp only [decrust_value, Encrusted.decrust, Encrusted.new]
    simp [toggle_encrust_toggle_encrust v _ hwf]
  · simp only [cdecrust_value, CryptoEncrusted.decrust, CryptoEncrusted.new]
    simp [ctoggle_ctoggle (KS key nonce) v 0 hwf]
  · simp [toggle_encrust_toggle_encrust v _ hwf]

/-- Witness for C1 at the crate's own test value and seed. -/
theorem c1_construct_expose_roundtrip_witness :
    (EVal.arrCons (.num 4 42) (.arrCons (.str [72, 105]) .arrNil)).wf
        = true ∧
    decrust_value (Encrusted.new
        (EVal.arrCons (.num 4 42) (.arrCons (.str [72, 105]) .arrNil))
        0x2357bd1113171d1f) =
      EVal.arrCons (.num 4 42) (.arrCons (.str [72, 105]) .arrNil) :=
  ⟨by decide,
    (c1_construct_expose_roundtrip _ 0x2357bd1113171d1f
      (fun _ _ _ => 0) [] [] (by decide)).1⟩

/-- C3: releasing the exposure guard re-applies the toggle via a newly
seeded engine from the container's stored key material, so a container
that was not rekeyed during exposure is byte-identical after the guard
is dropped to what it held before `decrust`, in both backends. -/
theorem c3_guard_drop_restores (e : Encrusted)
    (KS : List Nat → List Nat → Nat → Nat) (ce : CryptoEncrusted)
    (h1 : e.data.wf = true) (h2 : ce.data.wf = true) :
    Decrusted.drop e.decrust = e ∧
    CryptoDecrusted.drop KS (CryptoEncrusted.decrust KS ce) = ce := by
  constructor
  · simp only [Decrusted.drop, Encrusted.decrust]
    simp [toggle_encrust_toggle_encrust e.data _ h1]
  · simp only [CryptoDecrusted.drop, CryptoEncrusted.decrust]
    simp [ctoggle_ctoggle (KS ce.key ce.nonce) ce.data 0 h2]

/-- Witness for C3 on concrete containers. -/
theorem c3_guard_drop_restores_witness :
    (EVal.str [1, 2, 3]).wf = true ∧
    Decrusted.drop (Encrusted.decrust ⟨.str [1, 2, 3], 99⟩) =
      (⟨.str [1, 2, 3], 99⟩ : Encrusted) :=
  ⟨by decide,
    (c3_guard_drop_restores ⟨.str [1, 2, 3], 99⟩ (fun _ _ i => i)
      ⟨.num 2 7, [5], [6]⟩ (by decide) (by decide)).1⟩

/-- C2 evaluation: the fast backend's drop zeroizes the data and the seed
once each, but the crypto backend's drop zeroizes the data twice and the
nonce never — after it runs, the nonce bytes (here the crate's own 0xAA
test nonce) are still intact. -/
theorem c2_crypto_drop_skips_nonce :
    fast_drop_wipes.count .data = 1 ∧
    fast_drop_wipes.count .seed = 1 ∧
    crypto_drop_wipes.count .data = 2 ∧
    crypto_drop_wipes.count .key = 1 ∧
    crypto_drop_wipes.count .nonce = 0 ∧
    (CryptoEncrusted.drop
        ⟨.num 1 0, List.replicate 32 0x55, List.replicate 24 0xAA⟩).nonce =
      List.replicate 24 0xAA := by
  refine ⟨by decide, by decide, by decide, by decide, by decide, by decide⟩

/-- C4 counterexample: seed 185's first keystream byte is 0, so the
non-empty (1-byte) payload `42u8` is stored in the clear — its raw
obfuscated bytes equal the plaintext's serialized bytes. -/
theorem c4_counterexample :
    (Encrusted.new (.num 1 42) 185).data = .num 1 42 := by
  decide

/-- Helper: the fast toggle of a number leaf fixes the value exactly when
the applied keystream bytes are all zero. -/
theorem num_toggle_eq_self (w x : Nat) (st : RngState) (hx : x < 256 ^ w) :
    (toggle_encrust (.num w x) st).1 = .num w x ↔
      ∀ b ∈ (blockKeystream 7 w st).take w, b = 0 := by
  have hksn := blockKeystream_length_ge 7 w st
  have hlb : (toLeBytes w x).length ≤ (blockKeystream 7 w st).length := by
    rw [toLeBytes_length]; exact hksn
  have hzl := zipWith_xor_eq_self (toLeBytes w x) (blockKeystream 7 w st) hlb
  rw [toLeBytes_length] at hzl
  simp only [toggle_encrust]
  rw [xorChunks_fst, toLeBytes_length]
  simp only [EVal.num.injEq, true_and]
  have hlen : (List.zipWith (· ^^^ ·) (toLeBytes w x)
      (blockKeystream 7 w st)).length = w := by
    simp only [List.length_zipWith, toLeBytes_length]
    omega
  have hlt : ∀ b ∈ List.zipWith (· ^^^ ·) (toLeBytes w x)
      (blockKeystream 7 w st), b < 256 :=
    zipWith_xor_lt _ _ (toLeBytes_lt w x) (blockKeystream_lt 7 w st)
  have hgen : ∀ bs : List Nat, bs.length = w → (∀ b ∈ bs, b < 256) →
      toLeBytes w (fromLeBytes bs) = bs := by
    intro bs hbl hblt
    rw [← hbl]
    exact toLeBytes_fromLeBytes bs hblt
  constructor
  · intro hfrom
    apply hzl.mp
    have hZ := hgen _ hlen hlt
    rw [← hZ, hfrom]
  · intro hzero
    rw [hzl.mpr hzero, fromLeBytes_toLeBytes w x hx]

/-- Helper: the fast toggle of a text leaf fixes the buffer exactly when
the applied keystream bytes are all zero. -/
theorem str_toggle_eq_self (bytes : List Nat) (st : RngState) :
    (toggle_encrust (.str bytes) st).1 = .str bytes ↔
      ∀ b ∈ (blockKeystream 15 bytes.length st).take bytes.length, b = 0 := by
  have hkss := blockKeystream_length_ge 15 bytes.length st
  have hzl := zipWith_xor_eq_self bytes
    (blockKeystream 15 bytes.length st) hkss
  simp only [toggle_encrust]
  rw [xorChunks_fst]
  simp only [EVal.str.injEq]
  exact hzl

/-- C4 amended: while obfuscated, the stored bytes of a number or text
payload differ from the plaintext's serialized bytes if and only if the
keystream bytes applied to the payload are not all zero; and the stored
obfuscated representation after the guard is dropped is identical to the
one before the guard was created. -/
theorem c4_amended_obfuscated_bytes (w x : Nat) (bytes : List Nat)
    (seed : Nat) (hx : x < 256 ^ w) (hb : ∀ b ∈ bytes, b < 256) :
    ((Encrusted.new (.num w x) seed).data = .num w x ↔
      ∀ b ∈ (blockKeystream 7 w (seed_from_u64 seed)).take w, b = 0) ∧
    ((Encrusted.new (.str bytes) seed).data = .str bytes ↔
      ∀ b ∈ (blockKeystream 15 bytes.length
          (seed_from_u64 seed)).take bytes.length, b = 0) ∧
    Decrusted.drop (Encrusted.decrust (Encrusted.new (.num w x) seed)) =
      Encrusted.new (.num w x) seed ∧
    Decrusted.drop (Encrusted.decrust (Encrusted.new (.str bytes) seed)) =
      Encrusted.new (.str bytes) seed := by
  have hwfn : (EVal.num w x).wf = true := by
    simp only [EVal.wf, decide_eq_true_eq]
    exact hx
  have hwfs : (EVal.str bytes).wf = true := by
    simp only [EVal.wf, List.all_eq_true, decide_eq_true_eq]
    exact hb
  refine ⟨?_, ?_, ?_, ?_⟩
  · simpa only [Encrusted.new]
      using num_toggle_eq_self w x (seed_from_u64 seed) hx
  · simpa only [Encrusted.new]
      using str_toggle_eq_self bytes (seed_from_u64 seed)
  · simp only [Decrusted.drop, Encrusted.decrust, Encrusted.new]
    simp [toggle_encrust_toggle_encrust _ _ (toggle_encrust_wf _ _ hwfn)]
  · simp only [Decrusted.drop, Encrusted.decrust, Encrusted.new]
    simp [toggle_encrust_toggle_encrust _ _ (toggle_encrust_wf _ _ hwfs)]

/-- Witness for the amended C4 at a concrete payload and seed. -/
theorem c4_amended_obfuscated_bytes_witness :
    (42 : Nat) < 256 ^ 4 ∧ (∀ b ∈ [1, 2, 3], b < 256) ∧
    ((Encrusted.new (.num 4 42) 7).data = .num 4 42 ↔
      ∀ b ∈ (blockKeystream 7 4 (seed_from_u64 7)).take 4, b = 0) :=
  ⟨by decide, by decide,
    (c4_amended_obfuscated_bytes 4 42 [1, 2, 3] 7 (by decide)
      (by decide)).1⟩

/-- C5 counterexample: the distinct seeds 4 and 14 share their first
keystream byte, so reseeding a 1-byte container from seed 4 to seed 14
leaves the stored obfuscated byte unchanged. -/
theorem c5_counterexample :
    (4 : Nat) ≠ 14 ∧
    (Encrusted.new (.num 1 42) 4).reseed 14 =
      { data := (Encrusted.new (.num 1 42) 4).data, seed := 14 } := by
  refine ⟨by decide, by decide⟩

/-- C5 amended: rekeying to fresh key material still exposes the original
value (in both backends), and the stored bytes after the rekey are
exactly the value freshly obfuscated under the new key material — so they
differ from the bytes under the old key material exactly when the two
applied keystreams differ on the payload, which holds for generic but not
for all pairs of distinct key materials. -/
theorem c5_amended_rekey_preserves_value (v : EVal) (s1 s2 : Nat)
    (KS : List Nat → List Nat → Nat → Nat) (key nonce nk nn : List Nat)
    (hwf : v.wf = true) :
    decrust_value ((Encrusted.new v s1).reseed s2) = v ∧
    ((Encrusted.new v s1).reseed s2).data =
      (toggle_encrust v (seed_from_u64 s2)).1 ∧
    cdecrust_value KS
      ((CryptoEncrusted.new KS v key nonce).rekey KS nk nn) = v := by
  have h1 : (toggle_encrust (toggle_encrust v (seed_from_u64 s1)).1
      (seed_from_u64 s1)).1 = v := by
    simp [toggle_encrust_toggle_encrust v _ hwf]
  refine ⟨?_, ?_, ?_⟩
  · simp only [decrust_value, Encrusted.decrust, Encrusted.reseed,
      Encrusted.new, h1]
    simp [toggle_encrust_toggle_encrust v _ hwf]
  · simp only [Encrusted.reseed, Encrusted.new, h1]
  · have hc1 : (ctoggle (KS key nonce)
        (ctoggle (KS key nonce) v 0).1 0).1 = v := by
      simp [ctoggle_ctoggle (KS key nonce) v 0 hwf]
    simp only [cdecrust_value, CryptoEncrusted.decrust,
      CryptoEncrusted.rekey, CryptoEncrusted.new, hc1]
    simp [ctoggle_ctoggle (KS nk nn) v 0 hwf]

/-- Witness for the amended C5 at concrete seeds. -/
theorem c5_amended_rekey_preserves_value_witness :
    (EVal.num 4 1000).wf = true ∧
    decrust_value ((Encrusted.new (.num 4 1000) 4).reseed 14) =
      .num 4 1000 :=
  ⟨by decide,
    (c5_amended_rekey_preserves_value (.num 4 1000) 4 14
      (fun _ _ _ => 0) [] [] [] [] (by decide)).1⟩

/-- C6: a fast-backend numeric leaf is toggled by serializing to its
fixed-width little-endian bytes, XORing them against keystream consumed
in 8-byte blocks with one `fill_bytes` refill per block, and
deserializing little-endian; a text leaf XORs its UTF-8 buffer against
keystream consumed in 16-byte blocks with one refill per block; and the
de-obfuscation pass (`decrust` of a stored representation) applies the
identical convention, since both passes run the same `toggle_encrust`. -/
theorem c6_fast_backend_block_convention (w x y : Nat) (bytes : List Nat)
    (st : RngState) (seed : Nat) :
    toggle_encrust (.num w x) st =
      (.num w (fromLeBytes (List.zipWith (· ^^^ ·) (toLeBytes w x)
          (blockKeystream 7 w st))),
        refillState 7 ((w + 7) / 8) st) ∧
    toggle_encrust (.str bytes) st =
      (.str (List.zipWith (· ^^^ ·) bytes
          (blockKeystream 15 bytes.length st)),
        refillState 15 ((bytes.length + 15) / 16) st) ∧
    decrust_value (Encrusted.from_encrusted_data (.num w y) seed) =
      .num w (fromLeBytes (List.zipWith (· ^^^ ·) (toLeBytes w y)
        (blockKeystream 7 w (seed_from_u64 seed)))) := by
  have hn1 := xorChunks_fst 7 (toLeBytes w x) st
  have hn2 := xorChunks_snd 7 (toLeBytes w x) st
  rw [toLeBytes_length] at hn1 hn2
  have hs1 := xorChunks_fst 15 bytes st
  have hs2 := xorChunks_snd 15 bytes st
  have hy1 := xorChunks_fst 7 (toLeBytes w y) (seed_from_u64 seed)
  rw [toLeBytes_length] at hy1
  refine ⟨?_, ?_, ?_⟩
  · simp only [toggle_encrust]
    rw [Prod.ext_iff]
    refine ⟨by rw [hn1], by rw [hn2]⟩
  · simp only [toggle_encrust]
    rw [Prod.ext_iff]
    refine ⟨by rw [hs1], by rw [hs2]⟩
  · simp only [decrust_value, Encrusted.decrust,
      Encrusted.from_encrusted_data, toggle_encrust]
    rw [hy1]

/-- C8: the build-time generator is observationally equivalent to runtime
construction — it toggles the literal exactly once with an engine seeded
from the freshly drawn key material, hands the pre-toggled data and that
same key material to the trusted constructor, which stores both
unchanged, so the emitted container equals `Encrusted::new` of the
literal's value and decrusts to the original literal value. -/
theorem c8_generator_refines_runtime (lit : Literal) (seed : Nat)
    (hwf : lit.wf = true) :
    generate_output_tokens lit seed = Encrusted.new lit.toEVal seed ∧
    decrust_value (generate_output_tokens lit seed) = lit.toEVal := by
  have hbridge := to_token_stream_eq_toggle lit (seed_from_u64 seed)
  constructor
  · simp only [generate_output_tokens, Encrusted.from_encrusted_data,
      Encrusted.new, hbridge]
  · simp only [generate_output_tokens, Encrusted.from_encrusted_data,
      decrust_value, Encrusted.decrust, hbridge]
    simp [toggle_encrust_toggle_encrust _ _ (Literal.toEVal_wf lit hwf)]

/-- Witness for C8 at a concrete literal tree and seed. -/
theorem c8_generator_refines_runtime_witness :
    (Literal.arrCons (.int .u32 42)
        (.arrCons (.str [70, 111]) .arrNil)).wf = true ∧
    generate_output_tokens
        (Literal.arrCons (.int .u32 42) (.arrCons (.str [70, 111]) .arrNil))
        31337 =
      Encrusted.new
        (Literal.arrCons (.int .u32 42)
          (.arrCons (.str [70, 111]) .arrNil)).toEVal 31337 :=
  ⟨by decide,
    (c8_generator_refines_runtime
      (Literal.arrCons (.int .u32 42) (.arrCons (.str [70, 111]) .arrNil))
      31337 (by decide)).1⟩

/-- C9: an integer literal with no type suffix or an unsupported suffix,
or whose value is out of range for its suffixed type, parses to an error
attached to the literal's source span, and the macro expansion is a
`compile_error!` at that span with no obfuscated constant emitted; a
well-formed suffixed in-range literal parses to the corresponding typed
value and expands to an encrusted constant. -/
theorem c9_int_literal_error_handling (lit : RawIntLit) (seed : Nat) :
    (IntType.ofSuffix lit.suffix = none →
      ∃ msg, litint_parse lit = .error ⟨lit.span, msg⟩ ∧
        encrust_expand_int lit seed = .compileError lit.span msg) ∧
    (∀ t, IntType.ofSuffix lit.suffix = some t →
      (t.inRange lit.value = true →
        litint_parse lit = .ok (.int t lit.value) ∧
        encrust_expand_int lit seed =
          .encrusted (generate_output_tokens (.int t lit.value) seed)) ∧
      (t.inRange lit.value = false →
        ∃ msg, litint_parse lit = .error ⟨lit.span, msg⟩ ∧
          encrust_expand_int lit seed = .compileError lit.span msg)) := by
  have hp := litint_parse_eq lit
  constructor
  · intro hnone
    rw [hnone] at hp
    by_cases hsuf : lit.suffix = ""
    · rw [if_pos hsuf] at hp
      exact ⟨_, hp, by simp [encrust_expand_int, hp]⟩
    · rw [if_neg hsuf] at hp
      exact ⟨_, hp, by simp [encrust_expand_int, hp]⟩
  · intro t ht
    rw [ht] at hp
    constructor
    · intro hin
      have hok : litint_parse lit = .ok (.int t lit.value) := by
        rw [hp]
        simp [base10_parse, hin]
      exact ⟨hok, by simp [encrust_expand_int, hok]⟩
    · intro hout
      have herr : litint_parse lit =
          .error ⟨lit.span, "number too large to fit in target type"⟩ := by
        rw [hp]
        simp [base10_parse, hout]
      exact ⟨_, herr, by simp [encrust_expand_int, herr]⟩

/-- Witness for C9: a suffixless literal, an out-of-range `u8` literal
and an in-range `u8` literal at concrete spans. -/
theorem c9_int_literal_error_handling_witness :
    (IntType.ofSuffix "" = none ∧
      ∃ msg, litint_parse ⟨1, "", 3⟩ = .error ⟨3, msg⟩ ∧
        encrust_expand_int ⟨1, "", 3⟩ 0 = .compileError 3 msg) ∧
    (IntType.ofSuffix "u8" = some .u8 ∧ IntType.u8.inRange 300 = false ∧
      ∃ msg, litint_parse ⟨300, "u8", 5⟩ = .error ⟨5, msg⟩ ∧
        encrust_expand_int ⟨300, "u8", 5⟩ 0 = .compileError 5 msg) ∧
    (IntType.u8.inRange 255 = true ∧
      litint_parse ⟨255, "u8", 9⟩ = .ok (.int .u8 255)) :=
  ⟨⟨by decide, (c9_int_literal_error_handling ⟨1, "", 3⟩ 0).1 (by decide)⟩,
    ⟨by decide, by decide,
      ((c9_int_literal_error_handling ⟨300, "u8", 5⟩ 0).2 .u8 (by decide)).2
        (by decide)⟩,
    ⟨by decide,
      (((c9_int_literal_error_handling ⟨255, "u8", 9⟩ 0).2 .u8
        (by decide)).1 (by decide)).1⟩⟩

/-- C10: toggling an empty payload (empty `String`, empty `Vec`, or
zero-length array) is the identity and consumes no keystream, so
`Encrusted::new` of an empty value stores data byte-identical to the
plaintext, and the round-trip through `decrust` still yields the empty
value. -/
theorem c10_empty_payload_identity (seed : Nat) (st : RngState) :
    toggle_encrust (.str []) st = (.str [], st) ∧
    toggle_encrust .arrNil st = (.arrNil, st) ∧
    Encrusted.new (.str []) seed = ⟨.str [], seed⟩ ∧
    Encrusted.new .arrNil seed = ⟨.arrNil, seed⟩ ∧
    decrust_value (Encrusted.new (.str []) seed) = .str [] ∧
    decrust_value (Encrusted.new .arrNil seed) = .arrNil :=
  ⟨rfl, rfl, rfl, rfl, rfl, rfl⟩

/-- Validation of the keystream model against the repository's own pinned
regression vector (test `ensure_encrust_has_not_changed`): toggling the
crate's 47-byte test string under seed 5233902475398815152 yields exactly
the obfuscated bytes hard-coded in that test. -/
theorem model_matches_pinned_test_vector :
    (toggle_encrust (.str [84, 104, 101, 32, 113, 117, 105, 99, 107, 32,
        98, 114, 111, 119, 110, 32, 102, 111, 120, 32, 106, 117, 109, 112,
        115, 32, 111, 118, 101, 114, 32, 116, 104, 101, 32, 108, 97, 122,
        121, 32, 100, 111, 103, 240, 159, 152, 138])
      (seed_from_u64 5233902475398815152)).1 =
    .str [55, 10, 35, 94, 130, 81, 207, 225, 64, 17, 143, 78, 95, 204, 50,
      183, 54, 185, 59, 50, 163, 122, 131, 136, 172, 79, 17, 12, 56, 64,
      59, 173, 102, 54, 184, 186, 1, 246, 193, 136, 220, 224, 117, 144,
      131, 65, 77] := by
  decide

/-- Validation in the direction the pinned test actually runs: decrusting
the hard-coded pre-obfuscated container recovers the crate's test string. -/
theorem model_decrusts_pinned_test_vector :
    decrust_value (Encrusted.from_encrusted_data
      (.str [55, 10, 35, 94, 130, 81, 207, 225, 64, 17, 143, 78, 95, 204,
        50, 183, 54, 185, 59, 50, 163, 122, 131, 136, 172, 79, 17, 12, 56,
        64, 59, 173, 102, 54, 184, 186, 1, 246, 193, 136, 220, 224, 117,
        144, 131, 65, 77]) 5233902475398815152) =
    .str [84, 104, 101, 32, 113, 117, 105, 99, 107, 32, 98, 114, 111, 119,
      110, 32, 102, 111, 120, 32, 106, 117, 109, 112, 115, 32, 111, 118,
      101, 114, 32, 116, 104, 101, 32, 108, 97, 122, 121, 32, 100, 111,
      103, 240, 159, 152, 138] := by
  decide

end Encrust
